import Mathlib

/-!
Verification of the alpaka OpenMP accelerator core
(`src/include/alpaka/AccOpenMp.hpp`) and of the memory-view pitch traits
(`src/include/alpaka/traits/mem/View.hpp`, `src/include/alpaka/mem/view/Traits.hpp`).

The C++ is shallowly embedded: `vec<3u>` becomes `Vec3` (components as `Nat`;
all values arising in a validated launch are far below `2^32`, so unsigned
machine arithmetic and `Nat` arithmetic coincide on them), the mutable
accelerator object becomes an explicit `AccState`, and the kernel executor
becomes a function from a state and a work size to a final state, an optional
error and the list of kernel-body invocations it performs, in source order.
-/

namespace Alpaka

/-- Model of `vec<3u>`: three unsigned components, axis order x, y, z. -/
structure Vec3 where
  x : Nat
  y : Nat
  z : Nat
deriving DecidableEq, Repr

/-- The linear size of an extent: the product of its components
(`getSize<..., Linear>` in the source). -/
def Vec3.linearSize (v : Vec3) : Nat := v.x * v.y * v.z

/-- Model of `WorkSizeDefault`: the work division bound to an accelerator — the
grid-block extent and the block-kernel (block-thread) extent. -/
structure WorkSize where
  gridBlocks : Vec3
  blockKernels : Vec3
deriving DecidableEq, Repr

/-- Model of `IndexOpenMp::getIdxBlockKernel` (AccOpenMp.hpp lines 76–87): the
block-kernel coordinate derived from the flat OpenMP thread number `t` and
the block-kernel extent `e`:
`( (t % (e1*e0)) % e0, (t % (e1*e0)) / e0, t / (e1*e0) )`. -/
def getIdxBlockKernel (e : Vec3) (t : Nat) : Vec3 where
  x := (t % (e.y * e.x)) % e.x
  y := (t % (e.y * e.x)) / e.x
  z := t / (e.y * e.x)

/-- The delinearization convention of the specification (§4.2):
`coord = (t mod e0, (t/e0) mod e1, t/(e0·e1))`.  Stated from the spec's words,
to be compared with the source's `getIdxBlockKernel`. -/
def specDelinearize (e : Vec3) (t : Nat) : Vec3 where
  x := t % e.x
  y := (t / e.x) % e.y
  z := t / (e.x * e.y)

/-- The linearization convention of the specification (§4.2), the inverse
direction of `specDelinearize`: `t = c0 + c1·e0 + c2·e0·e1`. -/
def specLinearize (e : Vec3) (c : Vec3) : Nat :=
  c.x + c.y * e.x + c.z * (e.x * e.y)

/-- The source's delinearization agrees with the spec convention at every
flat id, extent by extent.  (`e0 ∣ e1·e0` gives the x component,
`Nat.mod_mul_right_div_self` the y component, commutativity the z
component.) -/
theorem getIdxBlockKernel_eq_specDelinearize (e : Vec3) (t : Nat) :
    getIdxBlockKernel e t = specDelinearize e t := by
  unfold getIdxBlockKernel specDelinearize
  have hx : t % (e.y * e.x) % e.x = t % e.x :=
    Nat.mod_mod_of_dvd t ⟨e.y, Nat.mul_comm e.y e.x⟩
  have hy : t % (e.y * e.x) / e.x = t / e.x % e.y := by
    rw [Nat.mul_comm e.y e.x]
    exact Nat.mod_mul_right_div_self t e.x e.y
  have hz : t / (e.y * e.x) = t / (e.x * e.y) := by rw [Nat.mul_comm e.y e.x]
  simp [hx, hy, hz]

/-- Delinearization is a left inverse of linearization on coordinates valid in
the x and y axes (the z axis plays no role in the arithmetic). -/
theorem delinearize_linearize (e c : Vec3)
    (hx : c.x < e.x) (hy : c.y < e.y) :
    specDelinearize e (specLinearize e c) = c := by
  have hex : 0 < e.x := by omega
  have hey : 0 < e.y := by omega
  unfold specDelinearize specLinearize
  have h1 : c.x + c.y * e.x + c.z * (e.x * e.y)
      = c.x + e.x * (c.y + e.y * c.z) := by ring
  rw [h1]
  have hmodx : (c.x + e.x * (c.y + e.y * c.z)) % e.x = c.x := by
    rw [Nat.add_mul_mod_self_left]
    exact Nat.mod_eq_of_lt hx
  have hdivx : (c.x + e.x * (c.y + e.y * c.z)) / e.x = c.y + e.y * c.z := by
    rw [Nat.add_mul_div_left _ _ hex, Nat.div_eq_of_lt hx, Nat.zero_add]
  have hmody : (c.y + e.y * c.z) % e.y = c.y := by
    rw [Nat.add_mul_mod_self_left]
    exact Nat.mod_eq_of_lt hy
  have hdivxy : (c.x + e.x * (c.y + e.y * c.z)) / (e.x * e.y) = c.z := by
    rw [show c.x + e.x * (c.y + e.y * c.z) = c.x + e.x * c.y + e.x * e.y * c.z
        by ring]
    rw [Nat.add_mul_div_left _ _ (Nat.mul_pos hex hey)]
    have hlt : c.x + e.x * c.y < e.x * e.y := by
      calc c.x + e.x * c.y < e.x + e.x * c.y := by omega
        _ = e.x * (c.y + 1) := by ring
        _ ≤ e.x * e.y := Nat.mul_le_mul_left e.x hy
    rw [Nat.div_eq_of_lt hlt, Nat.zero_add]
  rw [hmodx, hdivx, hmody, hdivxy]

/-- Linearization is a left inverse of delinearization at every flat id. -/
theorem linearize_delinearize (e : Vec3) (t : Nat) :
    specLinearize e (specDelinearize e t) = t := by
  unfold specLinearize specDelinearize
  show t % e.x + t / e.x % e.y * e.x + t / (e.x * e.y) * (e.x * e.y) = t
  have h1 : t % e.x + t / e.x % e.y * e.x = t % (e.x * e.y) := by
    rw [Nat.mod_mul]; ring
  have h2 : t % (e.x * e.y) + t / (e.x * e.y) * (e.x * e.y) = t := by
    rw [Nat.mul_comm (t / (e.x * e.y)) (e.x * e.y)]
    exact Nat.mod_add_div t (e.x * e.y)
  omega

/-- A coordinate is valid for an extent when it is componentwise below it. -/
def Vec3.validFor (c e : Vec3) : Prop := c.x < e.x ∧ c.y < e.y ∧ c.z < e.z

instance (c e : Vec3) : Decidable (c.validFor e) := by
  unfold Vec3.validFor; infer_instance

/-- The per-launch mutable state of an `AccOpenMp` accelerator instance: the
bound work division (`TInterfacedWorkSize` base), `m_v3uiGridBlockIdx`,
`m_vvuiSharedMem` (each segment modelled by its byte size) and
`m_vuiExternalSharedMem` (modelled by its byte size). -/
structure AccState where
  workSize : WorkSize
  gridBlockIdx : Vec3
  sharedMemSegments : List Nat
  externSharedMemSize : Nat
deriving DecidableEq, Repr

/-- Model of `IndexOpenMp::getIdxGridBlock` (lines 91–94): the grid-block index is read
back from the state the dispatch loop stored it in, never derived. -/
def getIdxGridBlock (s : AccState) : Vec3 := s.gridBlockIdx

/-- One kernel-body invocation: the grid-block index the kernel observes, the
block-kernel index it observes, and the forwarded caller arguments. -/
structure Invocation (A : Type) where
  gridBlockIdx : Vec3
  blockKernelIdx : Vec3
  args : A
deriving DecidableEq, Repr

/-- The runtime error of the executor: the capacity check of lines 317–320. -/
inductive LaunchError where
  | capacity (requested maxAllowed : Nat)
deriving DecidableEq, Repr

/-- The order in which the dispatch loop of lines 332–340 walks the grid-block
coordinates: `bz` outermost, then `bY`, then `bx` innermost. -/
def gridBlockOrder (g : Vec3) : List Vec3 :=
  (List.range g.z).flatMap fun bz =>
    (List.range g.y).flatMap fun bY =>
      (List.range g.x).map fun bx => (⟨bx, bY, bz⟩ : Vec3)

/-- The `#pragma omp parallel num_threads(n)` region of lines 353–365 with
`n = linearSize` of the bound block-kernel extent: thread `t` invokes the
kernel body once, observing `getIdxGridBlock` of the current state and
`getIdxBlockKernel` of its own flat thread number. -/
def blockParallelRegion (A : Type) (s : AccState) (args : A) :
    List (Invocation A) :=
  (List.range s.workSize.blockKernels.linearSize).map fun t =>
    ⟨getIdxGridBlock s, getIdxBlockKernel s.workSize.blockKernels t, args⟩

/-- The grid loop of lines 332–368: for each block coordinate in order, store
it into `m_v3uiGridBlockIdx` and run the block's parallel region.  The kernel
body is opaque here, so the executor itself leaves `sharedMemSegments`
untouched inside the loop. -/
def gridLoop (A : Type) (s : AccState) (args : A) :
    AccState × List (Invocation A) :=
  (gridBlockOrder s.workSize.gridBlocks).foldl
    (fun p blk =>
      let st : AccState := { p.1 with gridBlockIdx := blk }
      (st, p.2 ++ blockParallelRegion A st args))
    (s, [])

/-- Model of `AccOpenMp::KernelExecutor::operator()` (lines 307–376).
`maxKernelsLinear` models `getSizeBlockKernelsLinearMax()` (a runtime query)
and `externMemBytes` models the kernel-supplied
`BlockSharedExternMemSizeBytes` trait.  Source order: the work division is
assigned (line 313) BEFORE the capacity check (line 317); on success the
extern segment is resized (line 323), the grid loop runs, and after all
blocks both shared-memory containers are cleared (lines 371–372). -/
def KernelExecutor.run (A : Type) (maxKernelsLinear : Nat)
    (externMemBytes : Vec3 → Nat) (s : AccState) (ws : WorkSize) (args : A) :
    AccState × Option LaunchError × List (Invocation A) :=
  let s1 : AccState := { s with workSize := ws }
  let numPerBlock := ws.blockKernels.linearSize
  if numPerBlock > maxKernelsLinear then
    (s1, some (.capacity numPerBlock maxKernelsLinear), [])
  else
    let s2 : AccState :=
      { s1 with externSharedMemSize := externMemBytes ws.blockKernels }
    let r := gridLoop A s2 args
    ({ r.1 with sharedMemSegments := [], externSharedMemSize := 0 }, none, r.2)

/-- The `num_threads` value the executor passes to `omp parallel`, one request
per grid block (line 343 and line 353). -/
def numThreadsRequests (ws : WorkSize) : List Nat :=
  (gridBlockOrder ws.gridBlocks).map fun _ => ws.blockKernels.linearSize

/-- The flat enumeration the dispatch performs: for every block coordinate in
loop order, one invocation per flat thread id of the block. -/
def dispatchInvocations (A : Type) (g b : Vec3) (args : A) :
    List (Invocation A) :=
  (gridBlockOrder g).flatMap fun blk =>
    (List.range b.linearSize).map fun t =>
      ⟨blk, getIdxBlockKernel b t, args⟩

/-- The grid loop's fold, started from any state and accumulator, produces the
flat enumeration of its block list (the loop only ever rebinds
`gridBlockIdx`, so the block-kernel extent read inside each parallel region
is the one bound at entry). -/
theorem gridLoop_foldl_invocations (A : Type) (args : A) (l : List Vec3) :
    ∀ (s : AccState) (acc : List (Invocation A)),
      (l.foldl (fun p blk =>
        let st : AccState := { p.1 with gridBlockIdx := blk }
        (st, p.2 ++ blockParallelRegion A st args)) (s, acc)).2
      = acc ++ l.flatMap (fun blk =>
          (List.range s.workSize.blockKernels.linearSize).map fun t =>
            ⟨blk, getIdxBlockKernel s.workSize.blockKernels t, args⟩) := by
  induction l with
  | nil => intro s acc; simp
  | cons blk rest ih =>
    intro s acc
    simp only [List.foldl_cons, List.flatMap_cons]
    rw [ih]
    simp [blockParallelRegion, getIdxGridBlock, List.append_assoc]

/-- On a validated launch the executor's invocation list is exactly the flat
dispatch enumeration. -/
theorem run_invocations_eq (A : Type) (maxK : Nat) (externF : Vec3 → Nat)
    (s : AccState) (ws : WorkSize) (args : A)
    (h : ws.blockKernels.linearSize ≤ maxK) :
    (KernelExecutor.run A maxK externF s ws args).2.2
      = dispatchInvocations A ws.gridBlocks ws.blockKernels args := by
  unfold KernelExecutor.run gridLoop dispatchInvocations
  have hnot : ¬ ws.blockKernels.linearSize > maxK := Nat.not_lt.mpr h
  simp only [hnot, if_false]
  rw [gridLoop_foldl_invocations]
  simp

/-- Membership in the loop's block enumeration is validity for the grid
extent. -/
theorem mem_gridBlockOrder (g blk : Vec3) :
    blk ∈ gridBlockOrder g ↔ blk.validFor g := by
  unfold gridBlockOrder Vec3.validFor
  constructor
  · intro hmem
    simp only [List.mem_flatMap, List.mem_map, List.mem_range] at hmem
    obtain ⟨bz, hbz, bY, hbY, bx, hbx, rfl⟩ := hmem
    exact ⟨hbx, hbY, hbz⟩
  · rintro ⟨hx, hy, hz⟩
    simp only [List.mem_flatMap, List.mem_map, List.mem_range]
    exact ⟨blk.z, hz, blk.y, hy, blk.x, hx, rfl⟩

/-- The loop's block enumeration never repeats a coordinate. -/
theorem gridBlockOrder_nodup (g : Vec3) : (gridBlockOrder g).Nodup := by
  unfold gridBlockOrder
  rw [List.nodup_flatMap]
  refine ⟨fun bz _ => ?_, ?_⟩
  · rw [List.nodup_flatMap]
    refine ⟨fun bY _ => ?_, ?_⟩
    · exact (List.nodup_range g.x).map fun a b hab => congrArg Vec3.x hab
    · refine List.Pairwise.imp ?_ (List.nodup_range g.y)
      intro a b hab v hva hvb
      simp only [List.mem_map, List.mem_range] at hva hvb
      obtain ⟨_, _, rfl⟩ := hva
      obtain ⟨_, _, h2⟩ := hvb
      exact hab (congrArg Vec3.y h2).symm
  · refine List.Pairwise.imp ?_ (List.nodup_range g.z)
    intro a b hab v hva hvb
    simp only [List.mem_flatMap, List.mem_map, List.mem_range] at hva hvb
    obtain ⟨_, _, _, _, rfl⟩ := hva
    obtain ⟨_, _, _, _, h2⟩ := hvb
    exact hab (congrArg Vec3.z h2).symm

/-- The total length of a flat map whose pieces all have the same length. -/
theorem sum_map_const_length {α β : Type} (l : List α) (f : α → List β)
    (c : Nat) (h : ∀ a, (f a).length = c) :
    (l.map (List.length ∘ f)).sum = l.length * c := by
  induction l with
  | nil => simp
  | cons a rest ih => simp [h, ih, Nat.succ_mul, Nat.add_comm]

/-- The enumeration of the grid loop has exactly `linearSize` entries. -/
theorem gridBlockOrder_length (g : Vec3) :
    (gridBlockOrder g).length = g.linearSize := by
  unfold gridBlockOrder Vec3.linearSize
  have hin : ∀ bz : Nat, ((List.range g.y).flatMap fun bY =>
      List.map (fun bx => (⟨bx, bY, bz⟩ : Vec3)) (List.range g.x)).length
      = g.y * g.x := by
    intro bz
    rw [List.length_flatMap, sum_map_const_length _ _ g.x (fun bY => by simp)]
    simp
  rw [List.length_flatMap, sum_map_const_length _ _ (g.y * g.x) hin]
  simp [List.length_range]; ring

/-- The flat thread id of a block is recovered from the derived block-kernel
coordinate, so distinct thread ids derive distinct coordinates. -/
theorem getIdxBlockKernel_injective (b : Vec3) :
    Function.Injective (getIdxBlockKernel b) := by
  intro t1 t2 h
  simp only [getIdxBlockKernel_eq_specDelinearize] at h
  have hc := congrArg (specLinearize b) h
  rwa [linearize_delinearize, linearize_delinearize] at hc

/-- A flat thread id below the block's linear size derives a coordinate valid
for the block-kernel extent. -/
theorem getIdxBlockKernel_validFor (b : Vec3) (t : Nat)
    (ht : t < b.linearSize) :
    (getIdxBlockKernel b t).validFor b := by
  rw [getIdxBlockKernel_eq_specDelinearize]
  unfold Vec3.linearSize at ht
  have hx : 0 < b.x := by
    rcases Nat.eq_zero_or_pos b.x with h | h
    · rw [h] at ht; simp at ht
    · exact h
  have hy : 0 < b.y := by
    rcases Nat.eq_zero_or_pos b.y with h | h
    · rw [h] at ht; simp at ht
    · exact h
  have hz : t / (b.x * b.y) < b.z := by
    rw [Nat.div_lt_iff_lt_mul (Nat.mul_pos hx hy)]
    calc t < b.x * b.y * b.z := ht
      _ = b.z * (b.x * b.y) := by ring
  exact ⟨Nat.mod_lt _ hx, Nat.mod_lt _ hy, hz⟩

/-- A coordinate valid for the block-kernel extent has a flat id below the
block's linear size which derives it. -/
theorem specLinearize_lt (e c : Vec3) (h : c.validFor e) :
    specLinearize e c < e.linearSize := by
  obtain ⟨hx, hy, hz⟩ := h
  unfold specLinearize Vec3.linearSize
  calc c.x + c.y * e.x + c.z * (e.x * e.y)
      < e.x + c.y * e.x + c.z * (e.x * e.y) := by omega
    _ = e.x * (1 + c.y + c.z * e.y) := by ring
    _ ≤ e.x * (e.y * (1 + c.z)) := by
        refine Nat.mul_le_mul_left e.x ?_
        calc 1 + c.y + c.z * e.y ≤ e.y + c.z * e.y := by omega
          _ = e.y * (1 + c.z) := by ring
    _ ≤ e.x * (e.y * e.z) := by
        exact Nat.mul_le_mul_left e.x (Nat.mul_le_mul_left e.y (by omega))
    _ = e.x * e.y * e.z := by ring

/-- The dispatch enumeration never repeats an invocation record. -/
theorem dispatchInvocations_nodup (A : Type) (g b : Vec3) (args : A) :
    (dispatchInvocations A g b args).Nodup := by
  unfold dispatchInvocations
  rw [List.nodup_flatMap]
  constructor
  · intro blk _
    refine (List.nodup_range b.linearSize).map ?_
    intro t1 t2 h
    exact getIdxBlockKernel_injective b (congrArg Invocation.blockKernelIdx h)
  · refine List.Pairwise.imp ?_ (gridBlockOrder_nodup g)
    intro a a' haa inv hva hvb
    simp only [List.mem_map, List.mem_range] at hva hvb
    obtain ⟨_, _, rfl⟩ := hva
    obtain ⟨_, _, h2⟩ := hvb
    exact haa (congrArg Invocation.gridBlockIdx h2).symm

/-- The dispatch enumeration contains exactly the records pairing a valid
block coordinate with a valid block-kernel coordinate and the forwarded
arguments. -/
theorem mem_dispatchInvocations (A : Type) (g b : Vec3) (args : A)
    (inv : Invocation A) :
    inv ∈ dispatchInvocations A g b args
      ↔ inv.gridBlockIdx.validFor g ∧ inv.blockKernelIdx.validFor b
        ∧ inv.args = args := by
  unfold dispatchInvocations
  simp only [List.mem_flatMap, List.mem_map, List.mem_range]
  constructor
  · rintro ⟨blk, hblk, t, ht, rfl⟩
    exact ⟨(mem_gridBlockOrder g blk).mp hblk,
      getIdxBlockKernel_validFor b t ht, rfl⟩
  · rintro ⟨hg, hb, ha⟩
    refine ⟨inv.gridBlockIdx, (mem_gridBlockOrder _ _).mpr hg,
      specLinearize b inv.blockKernelIdx, specLinearize_lt b _ hb, ?_⟩
    obtain ⟨hbx, hby, _⟩ := hb
    cases inv with
    | mk gi bi a =>
      simp only at ha hbx hby
      rw [getIdxBlockKernel_eq_specDelinearize, delinearize_linearize b bi hbx hby]
      rw [ha]

/-- The dispatch enumeration has one entry per block coordinate and flat
thread id. -/
theorem dispatchInvocations_length (A : Type) (g b : Vec3) (args : A) :
    (dispatchInvocations A g b args).length
      = g.linearSize * b.linearSize := by
  unfold dispatchInvocations
  rw [List.length_flatMap,
    sum_map_const_length _ _ b.linearSize (fun blk => by simp),
    gridBlockOrder_length]

/-- C2: for every extent with all axes at least 1 and every componentwise
valid coordinate, delinearizing (with the backend's `getIdxBlockKernel`) the
linearization of the coordinate under the shared convention yields the
coordinate again. -/
theorem claimC2_linearizationRoundTrip (e c : Vec3)
    (_he : 1 ≤ e.x ∧ 1 ≤ e.y ∧ 1 ≤ e.z) (hc : c.validFor e) :
    getIdxBlockKernel e (specLinearize e c) = c := by
  rw [getIdxBlockKernel_eq_specDelinearize]
  exact delinearize_linearize e c hc.1 hc.2.1

/-- Witness for C2 at extent (3,4,5) and coordinate (2,3,4). -/
theorem claimC2_linearizationRoundTrip_witness :
    getIdxBlockKernel ⟨3, 4, 5⟩ (specLinearize ⟨3, 4, 5⟩ ⟨2, 3, 4⟩)
      = (⟨2, 3, 4⟩ : Vec3) :=
  claimC2_linearizationRoundTrip ⟨3, 4, 5⟩ ⟨2, 3, 4⟩ (by decide) (by decide)

/-- C3: for every block-kernel extent with all axes at least 1 and every flat
thread id below the extent's linear size, the coordinate the backend derives
(`(t mod (e1·e0)) mod e0`, `(t mod (e1·e0)) / e0`, `t / (e1·e0)`) equals the
specified rule `(t mod e0, (t/e0) mod e1, t/(e0·e1))`. -/
theorem claimC3_codeDelinearizeMatchesSpec (e : Vec3) (t : Nat)
    (_he : 1 ≤ e.x ∧ 1 ≤ e.y ∧ 1 ≤ e.z) (_ht : t < e.linearSize) :
    getIdxBlockKernel e t = specDelinearize e t :=
  getIdxBlockKernel_eq_specDelinearize e t

/-- Witness for C3 at extent (3,4,5) and flat id 37. -/
theorem claimC3_codeDelinearizeMatchesSpec_witness :
    getIdxBlockKernel ⟨3, 4, 5⟩ 37 = specDelinearize ⟨3, 4, 5⟩ 37 :=
  claimC3_codeDelinearizeMatchesSpec ⟨3, 4, 5⟩ 37 (by decide) (by decide)

/-- C4: on a validated launch with all axes nonzero, the executor's kernel
invocations are exactly the flat dispatch enumeration: their number is
`product(grid) · product(block)`, each pair of a valid block coordinate and
a valid block-kernel coordinate occurs exactly once with the caller's
arguments forwarded unchanged, and every invocation of a block's parallel
region observes as grid-block index exactly the value the dispatch loop
stored for that block (independent of the thread identity). -/
theorem claimC4_dispatchCoverage (A : Type) [DecidableEq A]
    (maxK : Nat) (externF : Vec3 → Nat) (s : AccState) (ws : WorkSize)
    (args : A)
    (hval : ws.blockKernels.linearSize ≤ maxK)
    (_hg : 1 ≤ ws.gridBlocks.x ∧ 1 ≤ ws.gridBlocks.y ∧ 1 ≤ ws.gridBlocks.z)
    (_hb : 1 ≤ ws.blockKernels.x ∧ 1 ≤ ws.blockKernels.y
        ∧ 1 ≤ ws.blockKernels.z) :
    (KernelExecutor.run A maxK externF s ws args).2.2
        = dispatchInvocations A ws.gridBlocks ws.blockKernels args
    ∧ (KernelExecutor.run A maxK externF s ws args).2.2.length
        = ws.gridBlocks.linearSize * ws.blockKernels.linearSize
    ∧ (∀ blk thr : Vec3, blk.validFor ws.gridBlocks →
        thr.validFor ws.blockKernels →
        (KernelExecutor.run A maxK externF s ws args).2.2.count
          ⟨blk, thr, args⟩ = 1)
    ∧ (∀ inv ∈ (KernelExecutor.run A maxK externF s ws args).2.2,
        inv.args = args)
    ∧ (∀ st : AccState, ∀ inv ∈ blockParallelRegion A st args,
        inv.gridBlockIdx = getIdxGridBlock st) := by
  have heq := run_invocations_eq A maxK externF s ws args hval
  refine ⟨heq, ?_, ?_, ?_, ?_⟩
  · rw [heq, dispatchInvocations_length]
  · intro blk thr hblk hthr
    rw [heq]
    exact List.count_eq_one_of_mem
      (dispatchInvocations_nodup A ws.gridBlocks ws.blockKernels args)
      ((mem_dispatchInvocations A ws.gridBlocks ws.blockKernels args
        ⟨blk, thr, args⟩).mpr ⟨hblk, hthr, rfl⟩)
  · intro inv hinv
    rw [heq] at hinv
    exact ((mem_dispatchInvocations A ws.gridBlocks ws.blockKernels args
      inv).mp hinv).2.2
  · intro st inv hinv
    unfold blockParallelRegion at hinv
    simp only [List.mem_map, List.mem_range] at hinv
    obtain ⟨t, _, rfl⟩ := hinv
    rfl

/-- Witness for C4: grid (2,1,1), block (2,2,1), maximum 256, arguments 7. -/
theorem claimC4_dispatchCoverage_witness :
    (KernelExecutor.run Nat 256 (fun _ => 0)
        ⟨⟨⟨1, 1, 1⟩, ⟨1, 1, 1⟩⟩, ⟨0, 0, 0⟩, [], 0⟩
        ⟨⟨2, 1, 1⟩, ⟨2, 2, 1⟩⟩ 7).2.2
        = dispatchInvocations Nat ⟨2, 1, 1⟩ ⟨2, 2, 1⟩ 7
    ∧ (KernelExecutor.run Nat 256 (fun _ => 0)
        ⟨⟨⟨1, 1, 1⟩, ⟨1, 1, 1⟩⟩, ⟨0, 0, 0⟩, [], 0⟩
        ⟨⟨2, 1, 1⟩, ⟨2, 2, 1⟩⟩ 7).2.2.length
        = Vec3.linearSize ⟨2, 1, 1⟩ * Vec3.linearSize ⟨2, 2, 1⟩
    ∧ (∀ blk thr : Vec3, blk.validFor ⟨2, 1, 1⟩ → thr.validFor ⟨2, 2, 1⟩ →
        (KernelExecutor.run Nat 256 (fun _ => 0)
          ⟨⟨⟨1, 1, 1⟩, ⟨1, 1, 1⟩⟩, ⟨0, 0, 0⟩, [], 0⟩
          ⟨⟨2, 1, 1⟩, ⟨2, 2, 1⟩⟩ 7).2.2.count ⟨blk, thr, 7⟩ = 1)
    ∧ (∀ inv ∈ (KernelExecutor.run Nat 256 (fun _ => 0)
          ⟨⟨⟨1, 1, 1⟩, ⟨1, 1, 1⟩⟩, ⟨0, 0, 0⟩, [], 0⟩
          ⟨⟨2, 1, 1⟩, ⟨2, 2, 1⟩⟩ 7).2.2, inv.args = 7)
    ∧ (∀ st : AccState, ∀ inv ∈ blockParallelRegion Nat st 7,
        inv.gridBlockIdx = getIdxGridBlock st) :=
  claimC4_dispatchCoverage Nat 256 (fun _ => 0)
    ⟨⟨⟨1, 1, 1⟩, ⟨1, 1, 1⟩⟩, ⟨0, 0, 0⟩, [], 0⟩ ⟨⟨2, 1, 1⟩, ⟨2, 2, 1⟩⟩ 7
    (by decide) (by decide) (by decide)

/-- C1 counterexample: with backend maximum 256 and a requested block-kernel
extent (17,17,1) of product 289, the capacity error is raised and no kernel
body is invoked — but the launch is NOT free of partial side effects as the
claim states: the bound work division has already been overwritten with the
caller-supplied one, because the executor assigns the work size (line 313)
before it validates (line 317). -/
theorem claimC1_counterexample :
    ¬ ((KernelExecutor.run Nat 256 (fun _ => 0)
          ⟨⟨⟨1, 1, 1⟩, ⟨1, 1, 1⟩⟩, ⟨0, 0, 0⟩, [], 0⟩
          ⟨⟨1, 1, 1⟩, ⟨17, 17, 1⟩⟩ 0).2.1 = some (.capacity 289 256)
      ∧ (KernelExecutor.run Nat 256 (fun _ => 0)
          ⟨⟨⟨1, 1, 1⟩, ⟨1, 1, 1⟩⟩, ⟨0, 0, 0⟩, [], 0⟩
          ⟨⟨1, 1, 1⟩, ⟨17, 17, 1⟩⟩ 0).2.2 = []
      ∧ (KernelExecutor.run Nat 256 (fun _ => 0)
          ⟨⟨⟨1, 1, 1⟩, ⟨1, 1, 1⟩⟩, ⟨0, 0, 0⟩, [], 0⟩
          ⟨⟨1, 1, 1⟩, ⟨17, 17, 1⟩⟩ 0).1
        = ⟨⟨⟨1, 1, 1⟩, ⟨1, 1, 1⟩⟩, ⟨0, 0, 0⟩, [], 0⟩) := by
  decide

/-- C1 amended: an oversized block-kernel extent makes the executor raise the
capacity error before any kernel invocation — no thread runs, the
shared-memory segment list, the extern segment size and the grid-block index
are untouched — but the bound work division has already been overwritten
with the caller-supplied one, since the bind of line 313 precedes the
validation of line 317. -/
theorem claimC1_capacityFailClosed (A : Type) (maxK : Nat)
    (externF : Vec3 → Nat) (s : AccState) (ws : WorkSize) (args : A)
    (h : maxK < ws.blockKernels.linearSize) :
    KernelExecutor.run A maxK externF s ws args
      = ({ s with workSize := ws },
         some (.capacity ws.blockKernels.linearSize maxK), []) := by
  unfold KernelExecutor.run
  simp [h]

/-- Witness for C1 amended: maximum 256, block extent (17,17,1). -/
theorem claimC1_capacityFailClosed_witness :
    KernelExecutor.run Nat 256 (fun _ => 0)
        ⟨⟨⟨1, 1, 1⟩, ⟨1, 1, 1⟩⟩, ⟨0, 0, 0⟩, [], 0⟩
        ⟨⟨1, 1, 1⟩, ⟨17, 17, 1⟩⟩ 0
      = (⟨⟨⟨1, 1, 1⟩, ⟨17, 17, 1⟩⟩, ⟨0, 0, 0⟩, [], 0⟩,
         some (.capacity 289 256), []) :=
  claimC1_capacityFailClosed Nat 256 (fun _ => 0)
    ⟨⟨⟨1, 1, 1⟩, ⟨1, 1, 1⟩⟩, ⟨0, 0, 0⟩, [], 0⟩
    ⟨⟨1, 1, 1⟩, ⟨17, 17, 1⟩⟩ 0 (by decide)

/-- C8: at grid extent (1,1,1) and block-kernel extent (0,1,1) the capacity
validation passes (0 does not exceed 256) and the executor reports no error
and performs no invocation in this model — but it requests an OpenMP team
of 0 threads for the block (`num_threads(uiNumKernelsInBlock)` with
`uiNumKernelsInBlock = 0`), a value the `num_threads` clause does not
allow, so the real launch is not the legal empty launch the claim
describes. -/
theorem claimC8_zeroAxisRequestsZeroTeam :
    (KernelExecutor.run Nat 256 (fun _ => 0)
        ⟨⟨⟨1, 1, 1⟩, ⟨1, 1, 1⟩⟩, ⟨0, 0, 0⟩, [], 0⟩
        ⟨⟨1, 1, 1⟩, ⟨0, 1, 1⟩⟩ 0).2.1 = none
    ∧ (KernelExecutor.run Nat 256 (fun _ => 0)
        ⟨⟨⟨1, 1, 1⟩, ⟨1, 1, 1⟩⟩, ⟨0, 0, 0⟩, [], 0⟩
        ⟨⟨1, 1, 1⟩, ⟨0, 1, 1⟩⟩ 0).2.2 = []
    ∧ numThreadsRequests ⟨⟨1, 1, 1⟩, ⟨0, 1, 1⟩⟩ = [0] := by
  decide

/-- The observable events of one `KernelExecutor::operator()` call, in program
order.  Thread interleaving inside one parallel region is abstracted: the
region's kernel invocations are listed in flat-thread order and the
terminal barrier of line 364, passed by every thread of the block, is one
event after them. -/
inductive Event where
  | bindWorkDiv
  | capacityThrow (requested maxAllowed : Nat)
  | externResize (bytes : Nat)
  | blockBegin (blk : Vec3)
  | kernelInvoke (blk : Vec3) (t : Nat)
  | blockBarrier (blk : Vec3)
  | sharedMemClear
  | externMemClear
deriving DecidableEq, Repr

/-- Whether an event is the start of a block's execution. -/
def Event.isBlockBegin : Event → Bool
  | blockBegin _ => true
  | _ => false

/-- The event trace of a launch, following lines 307–376: bind the work
division; throw on capacity violation; otherwise resize the extern segment,
run every grid block (begin, one invocation per flat thread id, terminal
barrier), and clear both shared-memory containers only after the loop. -/
def launchTrace (maxK : Nat) (externF : Vec3 → Nat) (ws : WorkSize) :
    List Event :=
  Event.bindWorkDiv ::
  (if ws.blockKernels.linearSize > maxK then
    [Event.capacityThrow ws.blockKernels.linearSize maxK]
  else
    Event.externResize (externF ws.blockKernels) ::
    (((gridBlockOrder ws.gridBlocks).flatMap fun blk =>
      Event.blockBegin blk ::
      ((List.range ws.blockKernels.linearSize).map fun t =>
        Event.kernelInvoke blk t)
      ++ [Event.blockBarrier blk])
    ++ [Event.sharedMemClear, Event.externMemClear]))

/-- The discard discipline claimed for shared memory: between any two block
starts of a trace there is a shared-memory clear. -/
def sharedClearedBetweenBlocks (tr : List Event) : Prop :=
  ∀ i < tr.length, ∀ j < tr.length,
    (i < j ∧ (tr.getD i Event.sharedMemClear).isBlockBegin = true
      ∧ (tr.getD j Event.sharedMemClear).isBlockBegin = true) →
    ∃ k < j, i < k ∧ tr.getD k Event.bindWorkDiv = Event.sharedMemClear

instance (tr : List Event) : Decidable (sharedClearedBetweenBlocks tr) := by
  unfold sharedClearedBetweenBlocks; infer_instance

/-- C5 counterexample: in a launch of two blocks (grid extent (1,1,2), block
extent (1,1,1), maximum 256) the first block's shared-memory segments are
not discarded before the second block begins — the only clear is after the
whole grid loop (line 371). -/
theorem claimC5_counterexample :
    ¬ sharedClearedBetweenBlocks
        (launchTrace 256 (fun _ => 0) ⟨⟨1, 1, 2⟩, ⟨1, 1, 1⟩⟩) := by
  decide

/-- C5 amended: on a validated launch the shared-memory containers are
discarded exactly once, at teardown, after every block's invocations and
terminal barrier — never between two blocks — so a block's segments survive
until the end of the launch (but not beyond it). -/
theorem claimC5_segmentsClearedAtTeardown (maxK : Nat)
    (externF : Vec3 → Nat) (ws : WorkSize)
    (h : ws.blockKernels.linearSize ≤ maxK) :
    ∃ body : List Event,
      launchTrace maxK externF ws
        = [Event.bindWorkDiv, Event.externResize (externF ws.blockKernels)]
          ++ body ++ [Event.sharedMemClear, Event.externMemClear]
      ∧ Event.sharedMemClear ∉ body
      ∧ Event.externMemClear ∉ body
      ∧ ∀ blk ∈ gridBlockOrder ws.gridBlocks, Event.blockBarrier blk ∈ body := by
  refine ⟨(gridBlockOrder ws.gridBlocks).flatMap fun blk =>
    Event.blockBegin blk ::
    ((List.range ws.blockKernels.linearSize).map fun t =>
      Event.kernelInvoke blk t)
    ++ [Event.blockBarrier blk], ?_, ?_, ?_, ?_⟩
  · unfold launchTrace
    have hnot : ¬ ws.blockKernels.linearSize > maxK := Nat.not_lt.mpr h
    simp [hnot]
  · intro hmem
    simp only [List.mem_flatMap, List.mem_cons, List.mem_append,
      List.mem_map, List.mem_range] at hmem
    obtain ⟨blk, _, hcase⟩ := hmem
    rcases hcase with h1 | ⟨t, _, h1⟩ | h1 <;> simp at h1
  · intro hmem
    simp only [List.mem_flatMap, List.mem_cons, List.mem_append,
      List.mem_map, List.mem_range] at hmem
    obtain ⟨blk, _, hcase⟩ := hmem
    rcases hcase with h1 | ⟨t, _, h1⟩ | h1 <;> simp at h1
  · intro blk hblk
    simp only [List.mem_flatMap]
    exact ⟨blk, hblk, by simp⟩

/-- Witness for C5 amended: grid (1,1,2), block (1,1,1), maximum 256. -/
theorem claimC5_segmentsClearedAtTeardown_witness :
    ∃ body : List Event,
      launchTrace 256 (fun _ => 0) ⟨⟨1, 1, 2⟩, ⟨1, 1, 1⟩⟩
        = [Event.bindWorkDiv, Event.externResize 0]
          ++ body ++ [Event.sharedMemClear, Event.externMemClear]
      ∧ Event.sharedMemClear ∉ body
      ∧ Event.externMemClear ∉ body
      ∧ ∀ blk ∈ gridBlockOrder (⟨1, 1, 2⟩ : Vec3),
          Event.blockBarrier blk ∈ body :=
  claimC5_segmentsClearedAtTeardown 256 (fun _ => 0)
    ⟨⟨1, 1, 2⟩, ⟨1, 1, 1⟩⟩ (by decide)

/-- Model of `AccOpenMp::allocBlockSharedMem<T, UiNumElements>` (lines 243–258) as a
function of `sizeof(T)`, the element count and the block's current segment
list (byte sizes).  `none` models the build-time rejection by the
`static_assert` of line 246.  Otherwise the call is collective: barrier
(line 249); thread 0 alone appends `std::vector<uint8_t>(UiNumElements)` —
a segment of `UiNumElements` bytes, `sizeofT` is never used — barrier
(line 255); every thread then returns the address of the appended last
segment, modelled by its index in the list. -/
def allocBlockSharedMem (sizeofT numElements : Nat) (segs : List Nat) :
    Option (List Nat × Nat) :=
  if 0 < numElements then
    some (segs ++ [numElements], segs.length)
  else
    none

/-- C6: at element type `std::uint32_t` (`sizeof` 4) and element count 10, the
collective allocation appends exactly one segment and hands every thread
the index of that new last segment — but the segment holds 10 bytes, not
the 10 elements · 4 bytes the claim describes. -/
theorem claimC6_allocAppendsBytesNotElements :
    allocBlockSharedMem 4 10 [] = some ([10], 0)
    ∧ allocBlockSharedMem 4 10 [10] = some ([10, 10], 1)
    ∧ (10 : Nat) ≠ 10 * 4 := by
  decide

/-- C9: an `allocBlockSharedMem` instantiation is accepted exactly when the
element count is strictly positive — the zero-element instantiation is
rejected by the static assertion. -/
theorem claimC9_staticAssertRejectsZero (sizeofT numElements : Nat)
    (segs : List Nat) :
    (allocBlockSharedMem sizeofT numElements segs).isSome
      ↔ 0 < numElements := by
  unfold allocBlockSharedMem
  split <;> simp [*]

/-- Model of `AtomicOp<AtomicOpenMp, TOp, T>::atomicOp` (lines 165–173): inside
`#pragma omp critical` the operator is applied to the value at the address,
the result is stored, and the prior value is returned.  Mutual exclusion of
the critical section makes any set of concurrent invocations equivalent to
executing them one after another in some total order; that order is the
list order here, universally quantified.  Returns the final stored value
and the list of returned prior values, in execution order. -/
def atomicRun {α : Type} (init : α) (ops : List (α → α)) : α × List α :=
  match ops with
  | [] => (init, [])
  | f :: rest =>
    let r := atomicRun (f init) rest
    (r.1, init :: r.2)

/-- The successive stored results of the same execution order. -/
def atomicResults {α : Type} (init : α) (ops : List (α → α)) : List α :=
  match ops with
  | [] => []
  | f :: rest => f init :: atomicResults (f init) rest

/-- The final stored value applies every operator, in order: no update is
lost. -/
theorem atomicRun_fst {α : Type} (ops : List (α → α)) :
    ∀ init : α, (atomicRun init ops).1 = ops.foldl (fun a f => f a) init := by
  induction ops with
  | nil => intro init; rfl
  | cons f rest ih => intro init; simpa [atomicRun] using ih (f init)

/-- The returned prior values are the initial value followed by all
intermediate results except the final one. -/
theorem atomicRun_snd {α : Type} (ops : List (α → α)) :
    ∀ init : α,
      (atomicRun init ops).2 = (init :: atomicResults init ops).dropLast := by
  induction ops with
  | nil => intro init; rfl
  | cons f rest ih =>
    intro init
    simp only [atomicRun, atomicResults, List.dropLast_cons₂]
    exact congrArg (init :: ·) (ih (f init))

/-- Running `n` serialized additions of 1 starting at `k` store `k + n` and return
the priors `k, k+1, …, k+n-1`. -/
theorem atomicRun_add_ones (n : Nat) :
    ∀ k : Nat, atomicRun k (List.replicate n (fun v => v + 1))
      = (k + n, List.range' k n) := by
  induction n with
  | zero => intro k; rfl
  | succ m ih =>
    intro k
    simp only [List.replicate_succ, atomicRun, ih (k + 1), List.range'_succ]
    rw [show k + 1 + m = k + (m + 1) from by omega]

/-- C7: under the serialization the critical section enforces, in every
execution order the final value incorporates every operation, the returned
prior values are exactly the initial value followed by all but the last
result (so their multiset is `{initial, result₁, …, result_{N-1}}`), and in
particular 1000 atomic adds of 1 to a counter initialized at 0 yield 1000
and return each prior of 0..999 exactly once. -/
theorem claimC7_atomicSerialization {α : Type} (init : α)
    (ops : List (α → α)) :
    (atomicRun init ops).1 = ops.foldl (fun a f => f a) init
    ∧ (atomicRun init ops).2 = (init :: atomicResults init ops).dropLast
    ∧ atomicRun 0 (List.replicate 1000 (fun v : Nat => v + 1))
        = (1000, List.range 1000) := by
  refine ⟨atomicRun_fst ops init, atomicRun_snd ops init, ?_⟩
  rw [atomicRun_add_ones 1000 0, List.range_eq_range']

/-- Model of `traits::mem::GetPitchBytes<TuiIdx, TView>::getPitchBytes` of
`src/include/alpaka/traits/mem/View.hpp` (lines 65–80):
`extent[i] * sizeof(element)`. -/
def getPitchBytesView (elemSize : Nat) (ext : List Nat) (i : Nat) : Nat :=
  ext.getD i 0 * elemSize

/-- Model of `mem::view::traits::detail::GetPitchBytesDefault` of
`src/include/alpaka/mem/view/Traits.hpp` (lines 97–151), written on the
extent suffix from the queried dimension on (`ext.drop i`), which makes the
three specializations the three list shapes: `i = Dim` (empty suffix) gives
`sizeof(element)`; `i = Dim - 1` (singleton) gives
`extent[Dim-1] * sizeof(element)`; `i < Dim - 1` gives `extent[i] *` the
pitch of dimension `i + 1`. -/
def getPitchBytesDefaultAux (elemSize : Nat) : List Nat → Nat
  | [] => elemSize
  | [e] => e * elemSize
  | e :: rest₁ :: rest => e * getPitchBytesDefaultAux elemSize (rest₁ :: rest)

/-- Model of `mem::view::traits::GetPitchBytes<TIdx, TView>::getPitchBytes` of
`src/include/alpaka/mem/view/Traits.hpp` (lines 82–95): delegate to the
recursive default at dimension `i`. -/
def getPitchBytesDefault (elemSize : Nat) (ext : List Nat) (i : Nat) : Nat :=
  getPitchBytesDefaultAux elemSize (ext.drop i)

/-- The recursive default computes the product of the extent suffix times
the element size. -/
theorem getPitchBytesDefaultAux_eq_prod (elemSize : Nat) (l : List Nat) :
    getPitchBytesDefaultAux elemSize l = l.prod * elemSize := by
  induction l with
  | nil => simp [getPitchBytesDefaultAux]
  | cons e rest ih =>
    cases rest with
    | nil => simp [getPitchBytesDefaultAux]
    | cons r rs =>
      simp only [getPitchBytesDefaultAux, ih, List.prod_cons]
      ring

/-- C10 counterexample: for a 2-dimensional view of extent (2,3) and element
size 4, the old trait returns 2·4 = 8 at dimension 0 while the recursive
default returns 2·(3·4) = 24. -/
theorem claimC10_counterexample :
    ¬ getPitchBytesDefault 4 [2, 3] 0 = getPitchBytesView 4 [2, 3] 0 := by
  decide

/-- C10 amended: the recursive default returns
`extent[i]·…·extent[Dim-1] · sizeof(element)` (the product of the remaining
extents), so the two computations agree at the last dimension
(`i = Dim - 1`) — and hence on every dimension of a 1-dimensional view —
but differ in general below it. -/
theorem claimC10_pitchAgreesOnLastDim (elemSize : Nat) (ext : List Nat)
    (i : Nat) :
    getPitchBytesDefault elemSize ext i = (ext.drop i).prod * elemSize
    ∧ (i + 1 = ext.length →
        getPitchBytesDefault elemSize ext i
          = getPitchBytesView elemSize ext i) := by
  refine ⟨getPitchBytesDefaultAux_eq_prod elemSize (ext.drop i), ?_⟩
  intro hlast
  have hi : i < ext.length := by omega
  rw [getPitchBytesDefault, List.drop_eq_getElem_cons hi]
  have hnil : ext.drop (i + 1) = [] := List.drop_eq_nil_of_le (by omega)
  rw [hnil]
  unfold getPitchBytesDefaultAux getPitchBytesView
  rw [List.getD_eq_getElem ext 0 hi]

/-- Witness for C10 amended at element size 4, extent (2,3), dimension 1. -/
theorem claimC10_pitchAgreesOnLastDim_witness :
    getPitchBytesDefault 4 [2, 3] 1 = ([2, 3].drop 1).prod * 4
    ∧ getPitchBytesDefault 4 [2, 3] 1 = getPitchBytesView 4 [2, 3] 1 :=
  ⟨(claimC10_pitchAgreesOnLastDim 4 [2, 3] 1).1,
   (claimC10_pitchAgreesOnLastDim 4 [2, 3] 1).2 (by decide)⟩

end Alpaka
